import Mathlib

/-!
Shallow embedding of the supply-and-scheduling core of the `z-play` media
player (Rust), together with proofs about the embedded operations.

Embedded components:
* `reduce_scan_result` and the streamed weighted-reservoir reduction
  (`src/random_files.rs`);
* `PathCache.insert_or_remove`, the bounded deduplication cache
  (`src/path_cache.rs`);
* the queue feeder's timeout computation and `patch_roots`
  (`src/http.rs`);
* `WorkerPool.send`, the command router of the engine worker pool
  (`src/pipeline/worker.rs`);
* `Pipeline.seek`, the position-clamping seek (`src/pipeline/mod.rs`,
  `src/gstreamer_pipeline.rs`).

Machine integers (`u64`, `usize`) are modelled as `Nat` with explicit
saturation where the source saturates; paths (`PathBuf`) are modelled as
lists of components (`List Nat`), so that `Path::starts_with` becomes
component-wise list-prefix; the random sample drawn by
`rng.random_range(0..total_count)` is an explicit `Nat` argument, and
distributions are obtained by counting those samples.
-/

namespace ZPlay

/-! ## Sampler: `ScanResult` and `reduce_scan_result` (src/random_files.rs) -/

/-- `ScanResult<PathBuf>` with paths abstracted to `Nat` identifiers:
`{ selected: Option<Path>, count: u64 }`. -/
structure ScanResult where
  selected : Option Nat
  count : Nat
  deriving DecidableEq, Repr

/-- `ScanResult::default()`: `{ selected: None, count: 0 }`. -/
def ScanResult.defaultRes : ScanResult := { selected := none, count := 0 }

/-- Largest `u64` value. -/
def U64MAX : Nat := 2 ^ 64 - 1

/-- `u64::saturating_add`. -/
def satAdd (a b : Nat) : Nat := min (a + b) U64MAX

/-- `reduce_scan_result` (src/random_files.rs lines 105-129).
The sample produced by `rng.random_range(0..total_count)` is passed in as
the explicit argument `r`; a genuine run always satisfies
`r < total_count`. -/
def reduce_scan_result (r : Nat) (a b : ScanResult) : ScanResult :=
  let total_count := satAdd a.count b.count
  if total_count = 0 then ScanResult.defaultRes
  else if a.count = 0 then b
  else if b.count = 0 then a
  else if r < a.count then { selected := a.selected, count := total_count }
  else { selected := b.selected, count := total_count }

/-! ## Dedup cache: `PathCache` (src/path_cache.rs) -/

/-- `CACHE_SIZE` (src/path_cache.rs line 6). -/
def CACHE_SIZE : Nat := 1000

/-- `PathCache`: an `FxHashSet` (modelled as a `Finset`) plus a `VecDeque`
(modelled as a `List`, front at the head). -/
structure PathCache (α : Type) [DecidableEq α] where
  set : Finset α
  queue : List α

variable {α : Type} [DecidableEq α]

/-- `PathCache::default()`: both structures empty. -/
def PathCache.defaultCache : PathCache α := { set := ∅, queue := [] }

/-- The `while self.queue.len() > CACHE_SIZE` eviction loop at the end of
`insert_or_remove`: pop the front of the queue and remove it from the set
until the queue holds at most `CACHE_SIZE` entries. -/
def evictLoop (s : Finset α) : List α → Finset α × List α
  | [] => (s, [])
  | v :: rest =>
    if (v :: rest).length > CACHE_SIZE then evictLoop (s.erase v) rest
    else (s, v :: rest)

/-- The eviction loop applied to a cache. -/
def PathCache.evict (c : PathCache α) : PathCache α :=
  { set := (evictLoop c.set c.queue).1, queue := (evictLoop c.set c.queue).2 }

/-- `PathCache::insert_or_remove` (src/path_cache.rs lines 18-33).
Returns `(!contains_value, updated cache)`. -/
def PathCache.insert_or_remove (c : PathCache α) (path : α) : Bool × PathCache α :=
  let contains_value := path ∈ c.set
  let c1 : PathCache α :=
    if contains_value then { c with set := c.set.erase path }
    else { set := insert path c.set, queue := c.queue ++ [path] }
  (!contains_value, c1.evict)

/-- Fold a sequence of `insert_or_remove` calls over a cache, keeping only
the final cache state. -/
def PathCache.applyAll (c : PathCache α) (paths : List α) : PathCache α :=
  paths.foldl (fun acc p => (acc.insert_or_remove p).2) c

/-! ## Lemmas about `reduce_scan_result` -/

theorem U64MAX_pos : 0 < U64MAX := by
  simp [U64MAX]

theorem satAdd_pos {a b : Nat} (ha : 0 < a) (hb : 0 < b) : 0 < satAdd a b := by
  have := U64MAX_pos
  simp only [satAdd]
  omega

theorem satAdd_eq_add {a b : Nat} (h : a + b ≤ U64MAX) : satAdd a b = a + b := by
  simp only [satAdd]
  omega

/-- With both counts positive, `reduce_scan_result` keeps `a`'s candidate
exactly when the sample is below `a.count`, and the count becomes the
saturating sum. -/
theorem reduce_scan_result_pos (r : Nat) (a b : ScanResult)
    (ha : 0 < a.count) (hb : 0 < b.count) :
    reduce_scan_result r a b =
      if r < a.count then { selected := a.selected, count := satAdd a.count b.count }
      else { selected := b.selected, count := satAdd a.count b.count } := by
  have htot : satAdd a.count b.count ≠ 0 := (satAdd_pos ha hb).ne'
  simp only [reduce_scan_result, htot, if_false, ha.ne', hb.ne']

theorem reduce_scan_result_left_zero (r : Nat) (a b : ScanResult)
    (ha : a.count = 0) (hb : 0 < b.count) : reduce_scan_result r a b = b := by
  have htot : satAdd 0 b.count ≠ 0 := by
    have := U64MAX_pos
    simp only [satAdd]
    omega
  simp [reduce_scan_result, ha, htot]

theorem reduce_scan_result_right_zero (r : Nat) (a b : ScanResult)
    (ha : 0 < a.count) (hb : b.count = 0) : reduce_scan_result r a b = a := by
  have htot : satAdd a.count 0 ≠ 0 := by
    have := U64MAX_pos
    simp only [satAdd]
    omega
  simp [reduce_scan_result, hb, htot, ha.ne']

theorem reduce_scan_result_both_zero (r : Nat) (a b : ScanResult)
    (ha : a.count = 0) (hb : b.count = 0) :
    reduce_scan_result r a b = ScanResult.defaultRes := by
  simp [reduce_scan_result, satAdd, ha, hb]

/-- Among the `total` possible samples, exactly `a.count` keep `a`'s
candidate. -/
theorem reduce_scan_result_card_left (a b : ScanResult)
    (ha : 0 < a.count) (hb : 0 < b.count) (hne : a.selected ≠ b.selected) :
    ((Finset.range (satAdd a.count b.count)).filter
        (fun r => (reduce_scan_result r a b).selected = a.selected)).card
      = min a.count (satAdd a.count b.count) := by
  have hcard : ((Finset.range (satAdd a.count b.count)).filter
      (fun r => (reduce_scan_result r a b).selected = a.selected))
      = (Finset.range (satAdd a.count b.count)).filter (fun r => r < a.count) := by
    apply Finset.filter_congr
    intro r _
    rw [reduce_scan_result_pos r a b ha hb]
    by_cases h : r < a.count <;> simp [h, hne.symm]
  rw [hcard]
  have : (Finset.range (satAdd a.count b.count)).filter (fun r => r < a.count)
      = Finset.range (min a.count (satAdd a.count b.count)) := by
    ext r
    simp only [Finset.mem_filter, Finset.mem_range]
    omega
  rw [this, Finset.card_range]

/-! ## Claim C2 -/

/-- C2 counterexample: with `a.count = u64::MAX` and `b.count = 1` the
resulting count is the saturating sum `u64::MAX`, not `ca + cb` as the
claim states. -/
theorem C2_claim_counterexample :
    (reduce_scan_result 0 { selected := some 0, count := U64MAX }
        { selected := some 1, count := 1 }).count ≠ U64MAX + 1 := by
  decide

/-- C2 (amended): for two `ScanResult`s `a` and `b`, `reduce_scan_result`
with sample `r`:
with both counts positive the resulting count is the saturating 64-bit sum
`min (ca + cb) (2^64 - 1)` and the selected candidate is `a`'s exactly when
`r < ca` (so, for `r` uniform on `[0, total)`, `a`'s candidate survives
with probability `ca / total`, witnessed by the sample count
`min ca total`); with exactly one count zero the other input is returned
unchanged; with both counts zero the empty default result is returned. -/
theorem C2_reduce_scan_result_contract (a b : ScanResult) (r : Nat) :
    (0 < a.count → 0 < b.count →
      (reduce_scan_result r a b).count = satAdd a.count b.count ∧
      (r < a.count → (reduce_scan_result r a b).selected = a.selected) ∧
      (a.count ≤ r → (reduce_scan_result r a b).selected = b.selected) ∧
      (a.selected ≠ b.selected →
        ((Finset.range (satAdd a.count b.count)).filter
            (fun i => (reduce_scan_result i a b).selected = a.selected)).card
          = min a.count (satAdd a.count b.count))) ∧
    (a.count = 0 → 0 < b.count → reduce_scan_result r a b = b) ∧
    (0 < a.count → b.count = 0 → reduce_scan_result r a b = a) ∧
    (a.count = 0 → b.count = 0 → reduce_scan_result r a b = ScanResult.defaultRes) := by
  refine ⟨fun ha hb => ?_, fun ha hb => reduce_scan_result_left_zero r a b ha hb,
    fun ha hb => reduce_scan_result_right_zero r a b ha hb,
    fun ha hb => reduce_scan_result_both_zero r a b ha hb⟩
  rw [reduce_scan_result_pos r a b ha hb]
  refine ⟨?_, fun h => ?_, fun h => ?_, fun hne => ?_⟩
  · by_cases h : r < a.count <;> simp [h]
  · simp [h]
  · simp [Nat.not_lt.mpr h]
  · exact reduce_scan_result_card_left a b ha hb hne

/-- Witness for C2 at `a = {some 0, 1}`, `b = {some 1, 1}`, `r = 0`. -/
theorem C2_witness :
    (0 : Nat) < 1 ∧
      (reduce_scan_result 0 { selected := some 0, count := 1 }
          { selected := some 1, count := 1 }).count = satAdd 1 1 :=
  ⟨Nat.zero_lt_one,
    ((C2_reduce_scan_result_contract { selected := some 0, count := 1 }
        { selected := some 1, count := 1 } 0).1 Nat.zero_lt_one Nat.zero_lt_one).1⟩

/-! ## Claim C1: distribution of an arbitrary reduction tree

A run of the sampler combines singleton `ScanResult`s (one per leaf file)
with `reduce_scan_result` under some grouping determined by the parallel
reduction.  `RTree` ranges over all such groupings; `resProb` is the
probability, over the independent uniform samples consumed by each
combination step, that the reduction of a tree produces a given
`ScanResult`. -/

/-- A grouping of the reduction: leaves are the singleton results
`{ selected: Some(path), count: 1 }`, nodes are `reduce_scan_result`
combination steps. -/
inductive RTree where
  | leaf (p : Nat)
  | node (l r : RTree)

/-- Leaf paths of a reduction tree, in order. -/
def RTree.leaves : RTree → List Nat
  | .leaf p => [p]
  | .node l r => l.leaves ++ r.leaves

/-- Number of leaves of a reduction tree. -/
def RTree.leafCount (t : RTree) : Nat := t.leaves.length

/-- Probability that the reduction of tree `t` produces the exact
`ScanResult` `res`.  A leaf produces its singleton result with
probability 1; a node combines the two independent sub-results with
`reduce_scan_result`, the sample `i` being uniform on
`[0, total_count)`. -/
def resProb : RTree → ScanResult → ℚ
  | .leaf p, res => if res = { selected := some p, count := 1 } then 1 else 0
  | .node l r, res =>
    ∑ x ∈ l.leaves.toFinset, ∑ y ∈ r.leaves.toFinset,
      ∑ i ∈ Finset.range (satAdd l.leafCount r.leafCount),
        resProb l { selected := some x, count := l.leafCount } *
            resProb r { selected := some y, count := r.leafCount } /
            (satAdd l.leafCount r.leafCount : ℚ) *
          (if reduce_scan_result i { selected := some x, count := l.leafCount }
              { selected := some y, count := r.leafCount } = res then 1 else 0)

theorem RTree.leafCount_pos (t : RTree) : 0 < t.leafCount := by
  induction t with
  | leaf p => simp [RTree.leafCount, RTree.leaves]
  | node l r ihl ihr =>
    simp only [RTree.leafCount, RTree.leaves, List.length_append] at *
    omega

theorem RTree.leafCount_node (l r : RTree) :
    (RTree.node l r).leafCount = l.leafCount + r.leafCount := by
  simp [RTree.leafCount, RTree.leaves]

/-- The samples of one combination step that yield a given candidate:
with sub-results `{some a, cl}` and `{some b, cr}` and saturating total
`T = satAdd cl cr`, the target `{some x, T}` is produced by `min cl T`
samples if `a = x`, plus the remaining `T - min cl T` samples if
`b = x`. -/
theorem reduce_indicator_sum (cl cr : Nat) (hcl : 0 < cl) (hcr : 0 < cr)
    (a b x : Nat) :
    (∑ i ∈ Finset.range (satAdd cl cr),
        (if reduce_scan_result i { selected := some a, count := cl }
            { selected := some b, count := cr }
            = { selected := some x, count := satAdd cl cr } then (1 : ℚ) else 0))
      = ((min cl (satAdd cl cr) : Nat) : ℚ) * (if a = x then 1 else 0)
        + ((satAdd cl cr - min cl (satAdd cl cr) : Nat) : ℚ) *
          (if b = x then 1 else 0) := by
  have hcongr : ∀ i ∈ Finset.range (satAdd cl cr),
      (if reduce_scan_result i { selected := some a, count := cl }
          { selected := some b, count := cr }
          = { selected := some x, count := satAdd cl cr } then (1 : ℚ) else 0)
        = if i < cl then (if a = x then (1 : ℚ) else 0)
          else (if b = x then (1 : ℚ) else 0) := by
    intro i _
    rw [reduce_scan_result_pos i _ _ hcl hcr]
    by_cases hi : i < cl <;> simp [hi, ScanResult.mk.injEq]
  rw [Finset.sum_congr rfl hcongr, Finset.sum_ite]
  have h1 : ((Finset.range (satAdd cl cr)).filter (fun i => i < cl)).card
      = min cl (satAdd cl cr) := by
    have : (Finset.range (satAdd cl cr)).filter (fun i => i < cl)
        = Finset.range (min cl (satAdd cl cr)) := by
      ext i
      simp only [Finset.mem_filter, Finset.mem_range]
      omega
    rw [this, Finset.card_range]
  have h2 : ((Finset.range (satAdd cl cr)).filter (fun i => ¬i < cl)).card
      = satAdd cl cr - min cl (satAdd cl cr) := by
    have hcard := Finset.filter_card_add_filter_neg_card_eq_card
      (s := Finset.range (satAdd cl cr)) (p := fun i => i < cl)
    rw [Finset.card_range, h1] at hcard
    omega
  rw [Finset.sum_const, Finset.sum_const, h1, h2, nsmul_eq_mul, nsmul_eq_mul]

theorem list_toFinset_sum_count (l : List Nat) :
    ∑ a ∈ l.toFinset, l.count a = l.length := by
  simp

/-- Evaluation of one combination step, saturation included: if the two
sub-reductions each select their leaves with probability
`count / leafCount`, then the combined reduction selects `x` (with the
saturating total count `T = satAdd cl cr`) with probability
`(min cl T · P_left(x) + (T - min cl T) · P_right(x)) / T`. -/
theorem resProb_node_eval (l r : RTree) (x : Nat)
    (ihl : ∀ a : Nat, resProb l { selected := some a, count := l.leafCount }
      = (l.leaves.count a : ℚ) / (l.leafCount : ℚ))
    (ihr : ∀ b : Nat, resProb r { selected := some b, count := r.leafCount }
      = (r.leaves.count b : ℚ) / (r.leafCount : ℚ)) :
    resProb (RTree.node l r)
        { selected := some x, count := satAdd l.leafCount r.leafCount }
      = (((min l.leafCount (satAdd l.leafCount r.leafCount) : Nat) : ℚ) *
            ((l.leaves.count x : ℚ) / (l.leafCount : ℚ))
          + ((satAdd l.leafCount r.leafCount
              - min l.leafCount (satAdd l.leafCount r.leafCount) : Nat) : ℚ) *
            ((r.leaves.count x : ℚ) / (r.leafCount : ℚ)))
        / (satAdd l.leafCount r.leafCount : ℚ) := by
  have hcl : 0 < l.leafCount := l.leafCount_pos
  have hcr : 0 < r.leafCount := r.leafCount_pos
  have hclQ : (l.leafCount : ℚ) ≠ 0 := Nat.cast_ne_zero.mpr hcl.ne'
  have hcrQ : (r.leafCount : ℚ) ≠ 0 := Nat.cast_ne_zero.mpr hcr.ne'
  have htotQ : ((satAdd l.leafCount r.leafCount : Nat) : ℚ) ≠ 0 :=
    Nat.cast_ne_zero.mpr (satAdd_pos hcl hcr).ne'
  -- total mass of each sub-distribution is 1
  have hmassL : ∑ a ∈ l.leaves.toFinset,
      resProb l { selected := some a, count := l.leafCount } = 1 := by
    rw [Finset.sum_congr rfl (fun a _ => ihl a), ← Finset.sum_div,
      ← Nat.cast_sum, list_toFinset_sum_count]
    exact div_self hclQ
  have hmassR : ∑ b ∈ r.leaves.toFinset,
      resProb r { selected := some b, count := r.leafCount } = 1 := by
    rw [Finset.sum_congr rfl (fun b _ => ihr b), ← Finset.sum_div,
      ← Nat.cast_sum, list_toFinset_sum_count]
    exact div_self hcrQ
  -- the point mass each sub-distribution puts on candidate x
  have hptL : ∑ a ∈ l.leaves.toFinset,
      resProb l { selected := some a, count := l.leafCount } *
        (if a = x then 1 else 0)
      = (l.leaves.count x : ℚ) / (l.leafCount : ℚ) := by
    simp_rw [mul_ite, mul_one, mul_zero]
    rw [Finset.sum_ite_eq' l.leaves.toFinset x
      (fun a => resProb l { selected := some a, count := l.leafCount })]
    by_cases hx : x ∈ l.leaves.toFinset
    · simp only [hx, if_true]
      exact ihl x
    · simp only [hx, if_false]
      rw [List.count_eq_zero_of_not_mem (by simpa using hx)]
      simp
  have hptR : ∑ b ∈ r.leaves.toFinset,
      resProb r { selected := some b, count := r.leafCount } *
        (if b = x then 1 else 0)
      = (r.leaves.count x : ℚ) / (r.leafCount : ℚ) := by
    simp_rw [mul_ite, mul_one, mul_zero]
    rw [Finset.sum_ite_eq' r.leaves.toFinset x
      (fun b => resProb r { selected := some b, count := r.leafCount })]
    by_cases hx : x ∈ r.leaves.toFinset
    · simp only [hx, if_true]
      exact ihr x
    · simp only [hx, if_false]
      rw [List.count_eq_zero_of_not_mem (by simpa using hx)]
      simp
  -- unfold one combination step
  rw [show resProb (RTree.node l r)
      { selected := some x, count := satAdd l.leafCount r.leafCount }
      = ∑ a ∈ l.leaves.toFinset, ∑ b ∈ r.leaves.toFinset,
          ∑ i ∈ Finset.range (satAdd l.leafCount r.leafCount),
            resProb l { selected := some a, count := l.leafCount } *
                resProb r { selected := some b, count := r.leafCount } /
                (satAdd l.leafCount r.leafCount : ℚ) *
              (if reduce_scan_result i { selected := some a, count := l.leafCount }
                  { selected := some b, count := r.leafCount }
                  = { selected := some x, count := satAdd l.leafCount r.leafCount }
                then 1 else 0) from rfl]
  have hstep : ∀ a ∈ l.leaves.toFinset, ∀ b ∈ r.leaves.toFinset,
      (∑ i ∈ Finset.range (satAdd l.leafCount r.leafCount),
        resProb l { selected := some a, count := l.leafCount } *
            resProb r { selected := some b, count := r.leafCount } /
            ((satAdd l.leafCount r.leafCount : Nat) : ℚ) *
          (if reduce_scan_result i { selected := some a, count := l.leafCount }
              { selected := some b, count := r.leafCount }
              = { selected := some x, count := satAdd l.leafCount r.leafCount }
            then 1 else 0))
      = resProb l { selected := some a, count := l.leafCount } *
          resProb r { selected := some b, count := r.leafCount } /
          ((satAdd l.leafCount r.leafCount : Nat) : ℚ) *
          (((min l.leafCount (satAdd l.leafCount r.leafCount) : Nat) : ℚ) *
              (if a = x then 1 else 0)
            + ((satAdd l.leafCount r.leafCount
                - min l.leafCount (satAdd l.leafCount r.leafCount) : Nat) : ℚ) *
              (if b = x then 1 else 0)) := by
    intro a _ b _
    rw [← Finset.mul_sum, reduce_indicator_sum l.leafCount r.leafCount hcl hcr]
  rw [Finset.sum_congr rfl (fun a ha => Finset.sum_congr rfl (fun b hb =>
    hstep a ha b hb))]
  -- split the double sum into the two point-mass terms
  have hsplit : ∀ a ∈ l.leaves.toFinset, ∀ b ∈ r.leaves.toFinset,
      resProb l { selected := some a, count := l.leafCount } *
          resProb r { selected := some b, count := r.leafCount } /
          ((satAdd l.leafCount r.leafCount : Nat) : ℚ) *
          (((min l.leafCount (satAdd l.leafCount r.leafCount) : Nat) : ℚ) *
              (if a = x then 1 else 0)
            + ((satAdd l.leafCount r.leafCount
                - min l.leafCount (satAdd l.leafCount r.leafCount) : Nat) : ℚ) *
              (if b = x then 1 else 0))
      = ((min l.leafCount (satAdd l.leafCount r.leafCount) : Nat) : ℚ) /
            ((satAdd l.leafCount r.leafCount : Nat) : ℚ) *
          ((resProb l { selected := some a, count := l.leafCount } *
            (if a = x then 1 else 0)) *
            resProb r { selected := some b, count := r.leafCount })
        + ((satAdd l.leafCount r.leafCount
            - min l.leafCount (satAdd l.leafCount r.leafCount) : Nat) : ℚ) /
            ((satAdd l.leafCount r.leafCount : Nat) : ℚ) *
          (resProb l { selected := some a, count := l.leafCount } *
            (resProb r { selected := some b, count := r.leafCount } *
              (if b = x then 1 else 0))) := by
    intro a _ b _
    by_cases hax : a = x <;> by_cases hbx : b = x <;>
      simp only [hax, hbx, if_true, if_false, mul_one, mul_zero, add_zero,
        zero_add] <;>
      field_simp <;> ring
  rw [Finset.sum_congr rfl (fun a ha => Finset.sum_congr rfl (fun b hb =>
    hsplit a ha b hb))]
  simp_rw [Finset.sum_add_distrib, ← Finset.mul_sum, ← Finset.sum_mul]
  rw [hmassR, hmassL, hptL, hptR]
  field_simp
  ring

/-- Core uniformity lemma: the reduction of any tree `t` with at most
`u64::MAX` leaves (so counts never saturate) produces
`{some x, leafCount t}` with probability `count x (leaves t) / leafCount t`,
for every path `x`. -/
theorem resProb_point (t : RTree) :
    t.leafCount ≤ U64MAX → ∀ x : Nat,
      resProb t { selected := some x, count := t.leafCount }
        = (t.leaves.count x : ℚ) / (t.leafCount : ℚ) := by
  induction t with
  | leaf p =>
    intro _ x
    by_cases hxp : x = p <;>
      simp [resProb, RTree.leafCount, RTree.leaves, ScanResult.mk.injEq, hxp,
        List.count_singleton]
  | node l r ihl ihr =>
    intro h x
    have hN := RTree.leafCount_node l r
    have hcl : 0 < l.leafCount := l.leafCount_pos
    have hcr : 0 < r.leafCount := r.leafCount_pos
    have hle : l.leafCount + r.leafCount ≤ U64MAX := by rw [← hN]; exact h
    have hl : l.leafCount ≤ U64MAX := by omega
    have hr : r.leafCount ≤ U64MAX := by omega
    have hclQ : (l.leafCount : ℚ) ≠ 0 := Nat.cast_ne_zero.mpr hcl.ne'
    have hcrQ : (r.leafCount : ℚ) ≠ 0 := Nat.cast_ne_zero.mpr hcr.ne'
    have hNQ : ((l.leafCount + r.leafCount : Nat) : ℚ) ≠ 0 := by
      rw [Nat.cast_ne_zero]
      omega
    have heval := resProb_node_eval l r x (ihl hl) (ihr hr)
    rw [satAdd_eq_add hle, Nat.min_eq_left (Nat.le_add_right _ _),
      Nat.add_sub_cancel_left] at heval
    rw [hN, heval]
    rw [show ((RTree.node l r).leaves.count x : ℚ)
        = (l.leaves.count x : ℚ) + (r.leaves.count x : ℚ) by
      simp [RTree.leaves, List.count_append]]
    field_simp

/-- A combination step never produces a result whose count differs from
the saturating sum of the sub-counts. -/
theorem resProb_node_count_ne (l r : RTree) (res : ScanResult)
    (hc : res.count ≠ satAdd l.leafCount r.leafCount) :
    resProb (RTree.node l r) res = 0 := by
  rw [show resProb (RTree.node l r) res
      = ∑ a ∈ l.leaves.toFinset, ∑ b ∈ r.leaves.toFinset,
          ∑ i ∈ Finset.range (satAdd l.leafCount r.leafCount),
            resProb l { selected := some a, count := l.leafCount } *
                resProb r { selected := some b, count := r.leafCount } /
                (satAdd l.leafCount r.leafCount : ℚ) *
              (if reduce_scan_result i { selected := some a, count := l.leafCount }
                  { selected := some b, count := r.leafCount } = res
                then 1 else 0) from rfl]
  refine Finset.sum_eq_zero fun a _ => Finset.sum_eq_zero fun b _ =>
    Finset.sum_eq_zero fun i _ => ?_
  rw [reduce_scan_result_pos i _ _ l.leafCount_pos r.leafCount_pos]
  have hne : ∀ s : Option Nat,
      ({ selected := s, count := satAdd l.leafCount r.leafCount } : ScanResult)
        ≠ res := by
    intro s heq
    exact hc (by rw [← heq])
  by_cases hi : i < l.leafCount
  · rw [if_pos hi, if_neg (hne (some a)), mul_zero]
  · rw [if_neg hi, if_neg (hne (some b)), mul_zero]

/-- A complete binary reduction tree with `2^k` leaves labelled
`o, o+1, ..., o+2^k-1`. -/
def fullTree : Nat → Nat → RTree
  | 0, o => .leaf o
  | k + 1, o => .node (fullTree k o) (fullTree k (o + 2 ^ k))

theorem leafCount_fullTree (k o : Nat) : (fullTree k o).leafCount = 2 ^ k := by
  induction k generalizing o with
  | zero => simp [fullTree, RTree.leafCount, RTree.leaves]
  | succ k ih =>
    rw [show fullTree (k + 1) o
        = RTree.node (fullTree k o) (fullTree k (o + 2 ^ k)) from rfl,
      RTree.leafCount_node, ih, ih, pow_succ]
    ring

theorem leaves_fullTree_count_lt (k : Nat) :
    ∀ o x : Nat, x < o → ((fullTree k o).leaves).count x = 0 := by
  induction k with
  | zero =>
    intro o x h
    rw [show fullTree 0 o = RTree.leaf o from rfl]
    simp only [RTree.leaves]
    rw [List.count_eq_zero_of_not_mem]
    simp only [List.mem_singleton]
    omega
  | succ k ih =>
    intro o x h
    rw [show fullTree (k + 1) o
        = RTree.node (fullTree k o) (fullTree k (o + 2 ^ k)) from rfl]
    simp only [RTree.leaves, List.count_append]
    have hpos : 0 < (2 : Nat) ^ k := by positivity
    rw [ih o x h, ih (o + 2 ^ k) x (by omega)]

theorem leaves_fullTree_count_first (k : Nat) :
    ∀ o : Nat, ((fullTree k o).leaves).count o = 1 := by
  induction k with
  | zero =>
    intro o
    rw [show fullTree 0 o = RTree.leaf o from rfl]
    simp [RTree.leaves]
  | succ k ih =>
    intro o
    rw [show fullTree (k + 1) o
        = RTree.node (fullTree k o) (fullTree k (o + 2 ^ k)) from rfl]
    simp only [RTree.leaves, List.count_append]
    have hpos : 0 < (2 : Nat) ^ k := by positivity
    rw [ih o, leaves_fullTree_count_lt k (o + 2 ^ k) o (by omega)]

set_option maxRecDepth 2000 in
/-- C1 counterexample: the claim quantifies over every multiset of leaves,
but `reduce_scan_result` accumulates counts with `u64::saturating_add`, so
uniformity fails once the reduction sees `2^64` leaves.  On the complete
tree with `2^64` distinct leaves: (i) the claimed uniform law fails — the
reduction's result always carries the saturated count `2^64 - 1`, so the
probability of the result `{some 0, leafCount}` (with the true leaf count
`2^64`) is `0`, not the claimed `1/2^64`; and (ii) the probability that
the reduction ends with leaf `0` selected (the result `{some 0, 2^64-1}`)
is `1/(2^64 - 1)`, which also differs from the uniform `1/2^64`. -/
theorem C1_claim_counterexample :
    resProb (fullTree 64 0)
        { selected := some 0, count := (fullTree 64 0).leafCount }
      ≠ ((fullTree 64 0).leaves.count 0 : ℚ) / ((fullTree 64 0).leafCount : ℚ) ∧
    resProb (fullTree 64 0) { selected := some 0, count := U64MAX }
      = 1 / (2 ^ 64 - 1) ∧
    (1 : ℚ) / (2 ^ 64 - 1) ≠ 1 / 2 ^ 64 := by
  have hunfold : fullTree 64 0
      = RTree.node (fullTree 63 0) (fullTree 63 (0 + 2 ^ 63)) := rfl
  have hsat : satAdd (fullTree 63 0).leafCount
      (fullTree 63 (0 + 2 ^ 63)).leafCount = U64MAX := by
    rw [leafCount_fullTree, leafCount_fullTree]
    decide
  refine ⟨?_, ?_, ?_⟩
  · have hzero : resProb (fullTree 64 0)
        { selected := some 0, count := (fullTree 64 0).leafCount } = 0 := by
      rw [hunfold]
      refine resProb_node_count_ne _ _ _ ?_
      rw [← hunfold, leafCount_fullTree, hsat]
      decide
    rw [hzero, leaves_fullTree_count_first, leafCount_fullTree]
    intro hcontr
    have h64 : ((2 : Nat) ^ 64 : ℚ) ≠ 0 := by positivity
    rw [eq_comm, div_eq_zero_iff] at hcontr
    rcases hcontr with hcontr | hcontr
    · norm_num at hcontr
    · exact h64 hcontr
  · have ihl := resProb_point (fullTree 63 0)
      (by rw [leafCount_fullTree]; decide)
    have ihr := resProb_point (fullTree 63 (0 + 2 ^ 63))
      (by rw [leafCount_fullTree]; decide)
    have heval := resProb_node_eval (fullTree 63 0) (fullTree 63 (0 + 2 ^ 63))
      0 ihl ihr
    rw [hsat] at heval
    rw [hunfold, heval]
    have hp : 0 < (2 : Nat) ^ 63 := by positivity
    rw [leaves_fullTree_count_first,
      leaves_fullTree_count_lt 63 (0 + 2 ^ 63) 0 (by omega),
      leafCount_fullTree, leafCount_fullTree]
    rw [show min ((2 : Nat) ^ 63) U64MAX = 2 ^ 63 from by decide]
    rw [show ((U64MAX - 2 ^ 63 : Nat) : ℚ) = ((U64MAX : Nat) : ℚ) - 2 ^ 63 from by
      rw [Nat.cast_sub (by decide)]
      norm_num]
    rw [show ((U64MAX : Nat) : ℚ) = 2 ^ 64 - 1 from by norm_num [U64MAX]]
    norm_num
  · intro hcontr
    rw [div_eq_div_iff (by norm_num) (by norm_num)] at hcontr
    norm_num at hcontr

/-- C1 (amended): combining a multiset of singleton `ScanResult` leaves
with `reduce_scan_result` under any grouping/order of combination (any
tree `t` with those leaves), provided there are at most `2^64 - 1` of them
(so the `u64::saturating_add` accumulation never saturates), yields a
`selected` distribution uniform over the leaf occurrences: every path `x`
is selected with probability `count x (leaves t) / leafCount t`, a value
depending only on the leaf multiset and not on the shape of the tree.
Beyond `2^64 - 1` leaves, saturation distorts the weights and uniformity
fails. -/
theorem C1_reduce_tree_uniform (t : RTree) (h : t.leafCount ≤ U64MAX) (x : Nat) :
    resProb t { selected := some x, count := t.leafCount }
      = (t.leaves.count x : ℚ) / (t.leafCount : ℚ) :=
  resProb_point t h x

/-- Witness for C1: a two-leaf tree, each leaf selected with
probability 1/2. -/
theorem C1_witness :
    resProb (RTree.node (RTree.leaf 0) (RTree.leaf 1))
        { selected := some 0,
          count := (RTree.node (RTree.leaf 0) (RTree.leaf 1)).leafCount }
      = ((RTree.node (RTree.leaf 0) (RTree.leaf 1)).leaves.count 0 : ℚ) /
        ((RTree.node (RTree.leaf 0) (RTree.leaf 1)).leafCount : ℚ) :=
  C1_reduce_tree_uniform (RTree.node (RTree.leaf 0) (RTree.leaf 1)) (by decide) 0

/-! ## Lemmas about `PathCache` -/

section PathCacheLemmas

variable {β : Type} [DecidableEq β]

theorem evictLoop_of_le (s : Finset β) (q : List β) (h : q.length ≤ CACHE_SIZE) :
    evictLoop s q = (s, q) := by
  cases q with
  | nil => rfl
  | cons v rest =>
    rw [evictLoop, if_neg]
    omega

theorem evict_of_le (c : PathCache β) (h : c.queue.length ≤ CACHE_SIZE) :
    c.evict = c := by
  simp [PathCache.evict, evictLoop_of_le c.set c.queue h]

theorem evictLoop_queue_le (s : Finset β) (q : List β) :
    (evictLoop s q).2.length ≤ CACHE_SIZE := by
  induction q generalizing s with
  | nil => simp [evictLoop, CACHE_SIZE]
  | cons v rest ih =>
    rw [evictLoop]
    by_cases h : (v :: rest).length > CACHE_SIZE
    · rw [if_pos h]
      exact ih (s.erase v)
    · rw [if_neg h]
      exact Nat.le_of_not_lt h

theorem evictLoop_fst_subset (s : Finset β) (q : List β) :
    (evictLoop s q).1 ⊆ s := by
  induction q generalizing s with
  | nil => simp [evictLoop]
  | cons v rest ih =>
    rw [evictLoop]
    by_cases h : (v :: rest).length > CACHE_SIZE
    · rw [if_pos h]
      exact (ih (s.erase v)).trans (Finset.erase_subset v s)
    · rw [if_neg h]

theorem evictLoop_subset (s : Finset β) (q : List β) (h : s ⊆ q.toFinset) :
    (evictLoop s q).1 ⊆ (evictLoop s q).2.toFinset := by
  induction q generalizing s with
  | nil => simpa [evictLoop] using h
  | cons v rest ih =>
    rw [evictLoop]
    by_cases hlen : (v :: rest).length > CACHE_SIZE
    · rw [if_pos hlen]
      refine ih (s.erase v) ?_
      intro a ha
      have hav : a ≠ v := Finset.ne_of_mem_erase ha
      have : a ∈ (v :: rest).toFinset := h (Finset.mem_of_mem_erase ha)
      simp only [List.toFinset_cons, Finset.mem_insert] at this
      exact this.resolve_left hav
    · rw [if_neg hlen]
      exact h

theorem applyAll_append_singleton (c : PathCache β) (L : List β) (x : β) :
    c.applyAll (L ++ [x]) = ((c.applyAll L).insert_or_remove x).2 := by
  simp [PathCache.applyAll, List.foldl_append]

/-- Folding distinct fresh insertions that fit within the capacity produces
exactly the expected set and FIFO. -/
theorem applyAll_nodup (L : List β) (hnd : L.Nodup) (hlen : L.length ≤ CACHE_SIZE) :
    (PathCache.defaultCache : PathCache β).applyAll L
      = { set := L.toFinset, queue := L } := by
  induction L using List.reverseRecOn with
  | nil => rfl
  | append_singleton M x ih =>
    have hndM : M.Nodup := (List.nodup_append.mp hnd).1
    have hxM : x ∉ M := by
      have := (List.nodup_append.mp hnd).2.2
      intro hx
      exact this hx (List.mem_singleton_self x)
    have hlenM : M.length ≤ CACHE_SIZE := by
      rw [List.length_append] at hlen
      omega
    rw [applyAll_append_singleton, ih hndM hlenM]
    simp only [PathCache.insert_or_remove, List.mem_toFinset]
    rw [if_neg (by simpa using hxM)]
    have hq : (M ++ [x]).length ≤ CACHE_SIZE := hlen
    rw [evict_of_le _ (by simpa using hq)]
    simp [List.toFinset_append, Finset.insert_eq, Finset.union_comm]

/-- A value sitting at the back of the queue and not occurring earlier in
it survives the eviction loop, in the set as well as in the queue: the
loop only pops front entries, which are all different from it. -/
theorem evictLoop_append_singleton_mem (s : Finset β) (q : List β) (p : β)
    (hs : p ∈ s) (hq : p ∉ q) :
    p ∈ (evictLoop s (q ++ [p])).1 ∧ p ∈ (evictLoop s (q ++ [p])).2 := by
  induction q generalizing s with
  | nil =>
    rw [show evictLoop s ([] ++ [p]) = evictLoop s [p] from rfl,
      evictLoop_of_le s [p] (by simp [CACHE_SIZE])]
    exact ⟨hs, by simp⟩
  | cons v rest ih =>
    have hpv : p ≠ v := by
      intro h
      exact hq (h ▸ List.mem_cons_self v rest)
    rw [show (v :: rest) ++ [p] = v :: (rest ++ [p]) from rfl, evictLoop]
    by_cases hlen : (v :: (rest ++ [p])).length > CACHE_SIZE
    · rw [if_pos hlen]
      exact ih (s.erase v) (Finset.mem_erase.mpr ⟨hpv, hs⟩)
        (fun h => hq (List.mem_cons_of_mem v h))
    · rw [if_neg hlen]
      exact ⟨hs, by simp⟩

end PathCacheLemmas

/-! ## Claim C3 -/

/-- C3 counterexample: removal does not purge the FIFO, so a state can
hold a stale copy of `P = 0` at the front of a full FIFO while `P` is not
a member.  Inserting `P` then pushes the FIFO over capacity and the
eviction immediately removes the just-inserted `P`, so the next
`toggle(P)` returns `true` again instead of the `false` the claim
predicts.  (States of this shape are reachable from the default cache:
toggle `P` twice, then insert 999 further distinct paths.) -/
theorem C3_claim_counterexample :
    (0 : Nat) ∉ ({ set := ∅, queue := 0 :: List.replicate 999 1 } :
        PathCache Nat).set ∧
    ((({ set := ∅, queue := 0 :: List.replicate 999 1 } :
          PathCache Nat).insert_or_remove 0).2.insert_or_remove 0).1 = true := by
  have h1 : (({ set := ∅, queue := 0 :: List.replicate 999 1 } :
        PathCache Nat).insert_or_remove 0).2
      = { set := (insert 0 (∅ : Finset Nat)).erase 0,
          queue := List.replicate 999 1 ++ [0] } := by
    simp only [PathCache.insert_or_remove]
    rw [if_neg (by simp)]
    simp only [PathCache.evict]
    rw [show ((0 :: List.replicate 999 1) ++ [0])
        = 0 :: (List.replicate 999 1 ++ [0]) from rfl]
    rw [evictLoop, if_pos (by
      simp only [List.length_cons, List.length_append, List.length_replicate,
        List.length_nil, CACHE_SIZE]
      omega)]
    rw [evictLoop_of_le _ _ (by
      simp only [List.length_cons, List.length_append, List.length_replicate,
        List.length_nil, CACHE_SIZE]
      omega)]
  refine ⟨by simp, ?_⟩
  rw [h1]
  show (!decide ((0 : Nat) ∈ (insert 0 (∅ : Finset Nat)).erase 0)) = true
  simp

/-- C3 (amended): `toggle` removes a present path from membership and
returns `false`, and returns `true` for an absent path.  From any state in
which `P` occurs in neither the set nor the FIFO — at any FIFO occupancy —
the `toggle(P)` thrice sequence returns `true`, `false`, `true`, with `P`
a member after the first call and no longer a member after the second:
evictions only pop FIFO fronts, all distinct from the freshly appended
`P`.  The one failure mode is a stale copy of `P` already in the FIFO
(removal does not purge the FIFO), where the insertion's eviction step can
evict the fresh `P` itself. -/
theorem C3_toggle_contract {β : Type} [DecidableEq β] (c : PathCache β) (p : β) :
    (p ∈ c.set → (c.insert_or_remove p).1 = false ∧
      p ∉ (c.insert_or_remove p).2.set) ∧
    (p ∉ c.set → (c.insert_or_remove p).1 = true) ∧
    (p ∉ c.set → p ∉ c.queue →
      (c.insert_or_remove p).1 = true ∧
      p ∈ (c.insert_or_remove p).2.set ∧
      ((c.insert_or_remove p).2.insert_or_remove p).1 = false ∧
      p ∉ ((c.insert_or_remove p).2.insert_or_remove p).2.set ∧
      ((((c.insert_or_remove p).2.insert_or_remove p).2).insert_or_remove p).1
        = true) := by
  refine ⟨fun hp => ⟨?_, ?_⟩, fun hp => ?_, fun hp hq => ?_⟩
  · simp [PathCache.insert_or_remove, hp]
  · simp only [PathCache.insert_or_remove, if_pos hp, PathCache.evict]
    intro hmem
    exact Finset.not_mem_erase p c.set
      (evictLoop_fst_subset (c.set.erase p) c.queue hmem)
  · simp [PathCache.insert_or_remove, hp]
  · have hsurv := evictLoop_append_singleton_mem (insert p c.set) c.queue p
      (Finset.mem_insert_self p c.set) hq
    have h1 : c.insert_or_remove p
        = (true, PathCache.mk (evictLoop (insert p c.set) (c.queue ++ [p])).1
            (evictLoop (insert p c.set) (c.queue ++ [p])).2) := by
      simp only [PathCache.insert_or_remove, if_neg hp, PathCache.evict]
      simp [hp]
    have hqlen : (evictLoop (insert p c.set) (c.queue ++ [p])).2.length
        ≤ CACHE_SIZE := evictLoop_queue_le _ _
    have h2 : (PathCache.mk (evictLoop (insert p c.set) (c.queue ++ [p])).1
          (evictLoop (insert p c.set) (c.queue ++ [p])).2).insert_or_remove p
        = (false, PathCache.mk
            ((evictLoop (insert p c.set) (c.queue ++ [p])).1.erase p)
            (evictLoop (insert p c.set) (c.queue ++ [p])).2) := by
      simp only [PathCache.insert_or_remove, if_pos hsurv.1]
      rw [evict_of_le _ hqlen]
      simp [hsurv.1]
    rw [h1, h2]
    refine ⟨rfl, hsurv.1, rfl, by simp, ?_⟩
    simp [PathCache.insert_or_remove, Finset.not_mem_erase]

/-- Witness for C3 (amended) at the empty cache. -/
theorem C3_witness :
    ((0 : Nat) ∉ (PathCache.defaultCache : PathCache Nat).set) ∧
    ((0 : Nat) ∉ (PathCache.defaultCache : PathCache Nat).queue) ∧
    ((PathCache.defaultCache : PathCache Nat).insert_or_remove 0).1 = true ∧
    (((PathCache.defaultCache : PathCache Nat).insert_or_remove 0).2.insert_or_remove
        0).1 = false := by
  have h := (C3_toggle_contract (PathCache.defaultCache : PathCache Nat) 0).2.2
    (by simp [PathCache.defaultCache]) (by simp [PathCache.defaultCache])
  exact ⟨by simp [PathCache.defaultCache], by simp [PathCache.defaultCache],
    h.1, h.2.2.1⟩

/-! ## Claim C4 -/

/-- The behaviour claimed for the `(K+1)`-th distinct insertion, as a
single proposition over the first `K` paths `M` and the extra path `x`:
after inserting `M` all its paths are members; after additionally
inserting `x` the oldest path (the head of `M`) is gone from both the set
and the FIFO while the remaining `K` paths are members, and the FIFO holds
exactly `M.tail ++ [x]`. -/
def EvictionAtCapacity {β : Type} [DecidableEq β] (M : List β) (x : β) : Prop :=
  (∀ p ∈ M, p ∈ ((PathCache.defaultCache : PathCache β).applyAll M).set) ∧
  (∀ p0, M.head? = some p0 →
    p0 ∉ ((PathCache.defaultCache : PathCache β).applyAll (M ++ [x])).set ∧
    p0 ∉ ((PathCache.defaultCache : PathCache β).applyAll (M ++ [x])).queue) ∧
  (∀ p ∈ M.tail ++ [x],
    p ∈ ((PathCache.defaultCache : PathCache β).applyAll (M ++ [x])).set) ∧
  ((PathCache.defaultCache : PathCache β).applyAll (M ++ [x])).queue
    = M.tail ++ [x]

/-- C4: starting from the empty cache, after inserting `K` distinct paths
all of them are members; the `(K+1)`-th distinct insertion evicts exactly
the oldest path from both the set and the FIFO, and the remaining `K`
paths are members. -/
theorem C4_eviction_at_capacity {β : Type} [DecidableEq β] (M : List β) (x : β)
    (hnd : (M ++ [x]).Nodup) (hlen : M.length = CACHE_SIZE) :
    EvictionAtCapacity M x := by
  unfold EvictionAtCapacity
  have hndM : M.Nodup := (List.nodup_append.mp hnd).1
  have hxM : x ∉ M := by
    have := (List.nodup_append.mp hnd).2.2
    intro hx
    exact this hx (List.mem_singleton_self x)
  have hfirst := applyAll_nodup M hndM (le_of_eq hlen)
  obtain ⟨p0, M2, rfl⟩ : ∃ p0 M2, M = p0 :: M2 := by
    cases M with
    | nil => simp [CACHE_SIZE] at hlen
    | cons a as => exact ⟨a, as, rfl⟩
  have hp0M2 : p0 ∉ M2 := (List.nodup_cons.mp hndM).1
  have hndM2 : M2.Nodup := (List.nodup_cons.mp hndM).2
  have hp0x : p0 ≠ x := by
    intro hpx
    exact hxM (hpx ▸ List.mem_cons_self p0 M2)
  have hM2len : M2.length + 1 = CACHE_SIZE := by
    simpa using hlen
  -- the state after the (K+1)-th insertion
  have hfinal : (PathCache.defaultCache : PathCache β).applyAll ((p0 :: M2) ++ [x])
      = { set := (insert x (p0 :: M2).toFinset).erase p0, queue := M2 ++ [x] } := by
    rw [applyAll_append_singleton, hfirst]
    simp only [PathCache.insert_or_remove, List.mem_toFinset, if_neg hxM]
    simp only [PathCache.evict]
    rw [show ((p0 :: M2) ++ [x]) = p0 :: (M2 ++ [x]) from rfl, evictLoop,
      if_pos (by simp; omega)]
    rw [evictLoop_of_le _ _ (by simp; omega)]
  refine ⟨fun p hp => ?_, fun q0 hq0 => ?_, fun p hp => ?_, ?_⟩
  · rw [hfirst]
    simpa using hp
  · obtain rfl : p0 = q0 := by simpa using hq0
    rw [hfinal]
    refine ⟨Finset.not_mem_erase p0 _, ?_⟩
    simp only [List.mem_append, List.mem_singleton]
    rintro (h | h)
    · exact hp0M2 h
    · exact hp0x h
  · rw [hfinal]
    simp only [List.tail_cons, List.mem_append, List.mem_singleton] at hp
    rcases hp with hp | hp
    · have hpp0 : p ≠ p0 := fun hpe => hp0M2 (hpe ▸ hp)
      apply Finset.mem_erase.mpr
      refine ⟨hpp0, ?_⟩
      simp [hp]
    · rw [hp]
      apply Finset.mem_erase.mpr
      exact ⟨Ne.symm hp0x, Finset.mem_insert_self x _⟩
  · rw [hfinal]
    rfl

/-- Witness for C4 with the paths `0, 1, ..., 999` followed by `1000`. -/
theorem C4_witness :
    (List.range CACHE_SIZE ++ [CACHE_SIZE]).Nodup ∧
    (List.range CACHE_SIZE).length = CACHE_SIZE ∧
    EvictionAtCapacity (List.range CACHE_SIZE) CACHE_SIZE :=
  ⟨by rw [← List.range_succ]; exact List.nodup_range _,
    List.length_range CACHE_SIZE,
    C4_eviction_at_capacity (List.range CACHE_SIZE) CACHE_SIZE
      (by rw [← List.range_succ]; exact List.nodup_range _)
      (List.length_range CACHE_SIZE)⟩

/-! ## Claim C5 -/

/-- The inductive invariant behind the capacity bound: the membership set
only holds values still present in the FIFO, and the FIFO is within
capacity. -/
def CacheInv {β : Type} [DecidableEq β] (c : PathCache β) : Prop :=
  c.set ⊆ c.queue.toFinset ∧ c.queue.length ≤ CACHE_SIZE

theorem cacheInv_default {β : Type} [DecidableEq β] :
    CacheInv (PathCache.defaultCache : PathCache β) := by
  constructor
  · simp [PathCache.defaultCache]
  · simp [PathCache.defaultCache, CACHE_SIZE]

theorem cacheInv_step {β : Type} [DecidableEq β] (c : PathCache β) (p : β)
    (h : CacheInv c) : CacheInv (c.insert_or_remove p).2 := by
  obtain ⟨hsub, hlen⟩ := h
  simp only [PathCache.insert_or_remove]
  by_cases hp : p ∈ c.set
  · rw [if_pos hp]
    constructor
    · exact evictLoop_subset _ _ ((Finset.erase_subset p c.set).trans hsub)
    · exact evictLoop_queue_le _ _
  · rw [if_neg hp]
    constructor
    · refine evictLoop_subset _ _ ?_
      intro a ha
      rcases Finset.mem_insert.mp ha with rfl | ha
      · simp
      · simp only [List.toFinset_append, Finset.mem_union]
        exact Or.inl (hsub ha)
    · exact evictLoop_queue_le _ _

theorem cacheInv_applyAll {β : Type} [DecidableEq β] (ops : List β) :
    CacheInv ((PathCache.defaultCache : PathCache β).applyAll ops) := by
  induction ops using List.reverseRecOn with
  | nil => exact cacheInv_default
  | append_singleton L x ih =>
    rw [applyAll_append_singleton]
    exact cacheInv_step _ x ih

/-- C5: after any sequence of `insert_or_remove` operations starting from
the default (empty) cache, the membership set holds at most
`CACHE_SIZE = 1000` entries. -/
theorem C5_cache_card_bounded {β : Type} [DecidableEq β] (ops : List β) :
    ((PathCache.defaultCache : PathCache β).applyAll ops).set.card ≤ CACHE_SIZE := by
  obtain ⟨hsub, hlen⟩ := cacheInv_applyAll ops
  calc ((PathCache.defaultCache : PathCache β).applyAll ops).set.card
      ≤ ((PathCache.defaultCache : PathCache β).applyAll
          ops).queue.toFinset.card := Finset.card_le_card hsub
    _ ≤ ((PathCache.defaultCache : PathCache β).applyAll ops).queue.length :=
        List.toFinset_card_le _
    _ ≤ CACHE_SIZE := hlen

/-! ## Claim C6: the scan deadline and partial results
(src/random_files.rs, `random_file_with_timeout` and `scan_root`)

Real time is abstracted to a `Nat` clock.  Each root walker produces one
`ScanResult`; the top-level `for_each` observes it at some delivery time
and, per the source, first drops the sender if the deadline has passed
(`*path_tx.lock() = None`), then sends the result only if the sender is
still alive.  The `cancel` flag is first stored only when the clock is
already past the deadline, so the combined condition
`cancel || now > deadline` is equivalent to `now > deadline`; delivery
times observed by the serialized `for_each` are nondecreasing. -/

/-- One root walker's outcome: the partial `ScanResult` it computed, the
time at which it finished computing it, and the (no earlier) time at which
the top-level `for_each` observes it. -/
structure RootDelivery where
  res : ScanResult
  computedAt : Nat
  deliveredAt : Nat
  deriving DecidableEq, Repr

/-- The `for_each` sender loop of `random_file_with_timeout`
(src/random_files.rs lines 38-45): `alive` is whether `path_tx` still
holds the sender; a delivery past the deadline drops the sender first, so
that result and all later ones are discarded. -/
def collectorSent (deadline : Nat) (alive : Bool) : List RootDelivery → List ScanResult
  | [] => []
  | d :: rest =>
    let alive2 := alive && decide (d.deliveredAt ≤ deadline)
    if alive2 then d.res :: collectorSent deadline alive2 rest
    else collectorSent deadline alive2 rest

/-- `Iterator::reduce(reduce_scan_result)` over the received results, the
random samples being fed from `seeds`. -/
def reduceFold : ScanResult → List Nat → List ScanResult → ScanResult
  | acc, _, [] => acc
  | acc, seeds, y :: rest =>
    reduceFold (reduce_scan_result (seeds.headD 0) acc y) seeds.tail rest

/-- `random_file_with_timeout` (src/random_files.rs lines 18-51), on the
abstract clock: combine everything the collector let through and return
its `selected` component. -/
def random_file_with_timeout (deadline : Nat) (dels : List RootDelivery)
    (seeds : List Nat) : Option Nat :=
  match collectorSent deadline true dels with
  | [] => none
  | x :: rest => (reduceFold x seeds rest).selected

/-- The leaf admission of `scan_root` (src/random_files.rs lines 84-102):
`take_any_while` admits leaves from the walk stream (each tagged with its
observation time) while the deadline has not passed. -/
def scanRootAdmitted (deadline : Nat) (stream : List (Nat × Nat)) : List Nat :=
  (stream.takeWhile (fun l => decide (l.2 ≤ deadline))).map Prod.fst

theorem collectorSent_false (deadline : Nat) (dels : List RootDelivery) :
    collectorSent deadline false dels = [] := by
  induction dels with
  | nil => rfl
  | cons d rest ih => simpa [collectorSent] using ih

/-- With nondecreasing delivery times, the collector lets through exactly
the results delivered at or before the deadline. -/
theorem collectorSent_eq_filter (deadline : Nat) (dels : List RootDelivery)
    (hmono : dels.Pairwise (fun d1 d2 => d1.deliveredAt ≤ d2.deliveredAt)) :
    collectorSent deadline true dels
      = (dels.filter (fun d => decide (d.deliveredAt ≤ deadline))).map
          RootDelivery.res := by
  induction dels with
  | nil => rfl
  | cons d rest ih =>
    obtain ⟨hd, hrest⟩ := List.pairwise_cons.mp hmono
    by_cases hdel : d.deliveredAt ≤ deadline
    · have hstep : collectorSent deadline true (d :: rest)
          = d.res :: collectorSent deadline true rest := by
        simp [collectorSent, hdel]
      rw [hstep, ih hrest, List.filter_cons, if_pos (by simpa using hdel),
        List.map_cons]
    · have hstep : collectorSent deadline true (d :: rest)
        = collectorSent deadline false rest := by
        simp [collectorSent, hdel]
      have hfilter : rest.filter (fun d2 => decide (d2.deliveredAt ≤ deadline))
          = [] := by
        rw [List.filter_eq_nil_iff]
        intro d2 hd2
        simp only [decide_eq_true_eq]
        have := hd d2 hd2
        omega
      rw [hstep, collectorSent_false, List.filter_cons,
        if_neg (by simpa using hdel), hfilter]
      rfl

/-- C6 counterexample: a single root walker computes the partial result
`{some 7, 1}` at time 4, before the deadline 5, but the collector observes
it at time 6; the collector drops the sender first, so the in-time partial
is discarded and the call returns `none`, while the claim says every
partial computed before the deadline is still combined (which would give
`some 7`). -/
theorem C6_claim_counterexample :
    (4 ≤ 5) ∧
    random_file_with_timeout 5
        [{ res := { selected := some 7, count := 1 },
           computedAt := 4, deliveredAt := 6 }] []
      = none := by
  exact ⟨by omega, rfl⟩

/-- C6 (amended): once the deadline passes, `scan_root` admits no new
leaf (every admitted leaf was observed at or before the deadline); the
top-level collector combines exactly the partial results *delivered* at or
before the deadline (delivery times being nondecreasing) and returns the
`selected` component of their reduction, `none` if nothing got through —
but a partial result computed before the deadline and delivered after it
is discarded, not combined. -/
theorem C6_expiry_contract (deadline : Nat) (dels : List RootDelivery)
    (seeds : List Nat)
    (hmono : dels.Pairwise (fun d1 d2 => d1.deliveredAt ≤ d2.deliveredAt)) :
    (random_file_with_timeout deadline dels seeds
      = match (dels.filter (fun d => decide (d.deliveredAt ≤ deadline))).map
            RootDelivery.res with
        | [] => none
        | x :: rest => (reduceFold x seeds rest).selected) ∧
    (∀ stream : List (Nat × Nat), ∀ p ∈ scanRootAdmitted deadline stream,
      ∃ t, t ≤ deadline ∧ (p, t) ∈ stream) := by
  constructor
  · rw [random_file_with_timeout, collectorSent_eq_filter deadline dels hmono]
  · intro stream p hp
    simp only [scanRootAdmitted, List.mem_map] at hp
    obtain ⟨⟨q, t⟩, hmem, hq⟩ := hp
    refine ⟨t, ?_, ?_⟩
    · have := List.mem_takeWhile_imp hmem
      simpa using this
    · have hsub : (stream.takeWhile (fun l => decide (l.2 ≤ deadline))).Sublist
          stream := List.takeWhile_sublist _
      cases hq
      exact hsub.mem hmem

/-- Witness for C6 (amended): one root delivered in time. -/
theorem C6_witness :
    random_file_with_timeout 5
        [{ res := { selected := some 3, count := 1 },
           computedAt := 1, deliveredAt := 2 }] []
      = some 3 := by
  have h := (C6_expiry_contract 5
    [{ res := { selected := some 3, count := 1 },
       computedAt := 1, deliveredAt := 2 }] []
    (List.pairwise_singleton _ _)).1
  simpa using h

/-! ## Claim C7: the queue feeder's timeout computation (src/http.rs) -/

/-- `QUEUE_SIZE` (src/http.rs line 25), the bounded queue capacity. -/
def QUEUE_SIZE : Nat := 1000

/-- The `timeout_ms` computed at the top of each `queue_feeder` iteration
(src/http.rs line 360): `100 + (9900 * queue_len / QUEUE_SIZE)`, with
truncating `usize` division. -/
def queue_feeder_timeout_ms (queue_len : Nat) : Nat :=
  100 + 9900 * queue_len / QUEUE_SIZE

/-- The `(busy_timeout, scan_timeout)` pair (in milliseconds) handed to
`random_file_with_timeout` by `queue_feeder` (src/http.rs lines 371-380):
`busy_timeout = timeout_ms` and `scan_timeout = busy_timeout * 2`. -/
def queue_feeder_sampler_timeouts (timeout_ms : Nat) : Nat × Nat :=
  (timeout_ms, timeout_ms * 2)

/-- C7: for every queue occupancy `L ≤ 1000`, the Discover loop computes
`timeout_ms = 100 + 9900·L/1000` with exact (truncating) integer division
and calls the sampler with `busy_timeout = timeout_ms` ms and
`scan_timeout = 2 · busy_timeout`; in particular 100 ms when the queue is
empty and 10000 ms when it is full. -/
theorem C7_feeder_timeout (L : Nat) (hL : L ≤ QUEUE_SIZE) :
    queue_feeder_timeout_ms L = 100 + 9900 * L / 1000 ∧
    (queue_feeder_sampler_timeouts (queue_feeder_timeout_ms L)).1
      = queue_feeder_timeout_ms L ∧
    (queue_feeder_sampler_timeouts (queue_feeder_timeout_ms L)).2
      = 2 * queue_feeder_timeout_ms L ∧
    queue_feeder_timeout_ms 0 = 100 ∧
    queue_feeder_timeout_ms QUEUE_SIZE = 10000 := by
  refine ⟨rfl, rfl, ?_, by decide, by decide⟩
  simp [queue_feeder_sampler_timeouts, Nat.mul_comm]

/-- Witness for C7 at half occupancy. -/
theorem C7_witness :
    (500 : Nat) ≤ QUEUE_SIZE ∧ queue_feeder_timeout_ms 500 = 100 + 9900 * 500 / 1000 :=
  ⟨by decide, (C7_feeder_timeout 500 (by decide)).1⟩

/-! ## Claim C8: `patch_roots` (src/http.rs lines 228-259)

Paths (`PathBuf`) are lists of components; `Path::starts_with` is
component-wise list prefix.  The queue is the drained-and-refilled flume
channel, modelled as the list of queued paths.  The deduplication
`PathCache` is a local variable of `queue_feeder`; `patch_roots` has no
access to it, which the model makes explicit by carrying it through
unchanged. -/

/-- A filesystem path as its list of components. -/
abbrev FsPath := List Nat

/-- The part of the HTTP server's shared state relevant to `patch_roots`:
the two root lists behind their `RwLock`s, the queued paths, and the
`queue_feeder`-local dedup cache. -/
structure ServerQueue where
  enabled_roots : List FsPath
  disabled_roots : List FsPath
  queue : List FsPath
  cache : PathCache FsPath

/-- One step of the root-moving loop of `patch_roots` (src/http.rs lines
234-246), acting on `(enabled_roots, disabled_roots)`: look the path up in
the source list (`position`), and when found remove it there and push it
onto the destination list. -/
def moveRoot (roots : List FsPath × List FsPath) (entry : FsPath × Bool) :
    List FsPath × List FsPath :=
  if entry.2 then
    match roots.2.findIdx? (fun p => p = entry.1) with
    | none => roots
    | some i => (roots.1 ++ [entry.1], roots.2.eraseIdx i)
  else
    match roots.1.findIdx? (fun p => p = entry.1) with
    | none => roots
    | some i => (roots.1.eraseIdx i, roots.2 ++ [entry.1])

/-- The whole root-moving loop. -/
def applyRootPatch (en dis : List FsPath) (body : List (FsPath × Bool)) :
    List FsPath × List FsPath :=
  body.foldl moveRoot (en, dis)

/-- `patch_roots` (src/http.rs lines 228-259): move the listed roots
between the enabled/disabled lists, then drain the queue and keep (re-send)
exactly the paths under some enabled root, dropping the others.  The
dedup cache is untouched: it lives inside `queue_feeder` and `patch_roots`
never communicates with it. -/
def patch_roots (st : ServerQueue) (body : List (FsPath × Bool)) : ServerQueue :=
  let moved := applyRootPatch st.enabled_roots st.disabled_roots body
  { enabled_roots := moved.1,
    disabled_roots := moved.2,
    queue := st.queue.filter
      (fun p => moved.1.any (fun root => root.isPrefixOf p)),
    cache := st.cache }

/-- C8 counterexample: with roots `[0]` and `[1]` enabled, path `[1, 5]`
queued and present in the dedup cache, disabling root `[1]` evicts
`[1, 5]` from the queue but its dedup cache entry is NOT released — the
cache still contains it, while the claim requires it gone. -/
theorem C8_claim_counterexample :
    ([1, 5] ∉ (patch_roots
        { enabled_roots := [[0], [1]], disabled_roots := [], queue := [[1, 5]],
          cache := ((PathCache.defaultCache : PathCache FsPath).insert_or_remove
            [1, 5]).2 }
        [([1], false)]).queue) ∧
    ([1, 5] ∈ (patch_roots
        { enabled_roots := [[0], [1]], disabled_roots := [], queue := [[1, 5]],
          cache := ((PathCache.defaultCache : PathCache FsPath).insert_or_remove
            [1, 5]).2 }
        [([1], false)]).cache.set) := by
  decide

/-- C8 (amended): after `patch_roots`, a path is queued exactly when it
was queued before and falls under some root enabled after the patch
(entries under no enabled root are evicted, the rest remain); the dedup
cache is returned unchanged — evicted entries are NOT released from it. -/
theorem C8_patch_roots_contract (st : ServerQueue) (body : List (FsPath × Bool)) :
    (∀ p : FsPath, p ∈ (patch_roots st body).queue ↔
      (p ∈ st.queue ∧
        ((patch_roots st body).enabled_roots.any
          (fun root => root.isPrefixOf p)) = true)) ∧
    (patch_roots st body).cache = st.cache := by
  constructor
  · intro p
    simp [patch_roots, List.mem_filter]
  · rfl

/-! ## Claim C9: `WorkerPool::send` (src/pipeline/worker.rs) -/

/-- Number of worker threads: `WorkerPool<3>` (src/pipeline/worker.rs
line 15). -/
def WORKER_N : Nat := 3

/-- The command protocol of the worker pool (src/pipeline/worker.rs lines
94-100), engine payloads abstracted. -/
inductive Command where
  | addPipeline (id : Nat)
  | removePipeline (id : Nat)
  | setState (id : Nat) (target : Nat)
  | seek (id : Nat) (time : Nat) (rate : Option Int)
  | setVideoSize (id : Nat) (width height : Int)
  deriving DecidableEq, Repr

/-- The router state: the round-robin counter and the
`pipeline_worker_map` (`FxHashMap<PipelineId, usize>`), modelled as an
association list with most recent binding first. -/
structure WorkerPool where
  next_index : Nat
  pipeline_worker_map : List (Nat × Nat)
  deriving DecidableEq, Repr

/-- Hash-map lookup. -/
def mapLookup (m : List (Nat × Nat)) (id : Nat) : Option Nat :=
  (m.find? (fun kv => kv.1 == id)).map Prod.snd

/-- Hash-map insert (replacing any previous binding). -/
def mapInsert (m : List (Nat × Nat)) (id idx : Nat) : List (Nat × Nat) :=
  (id, idx) :: m.filter (fun kv => kv.1 != id)

/-- Hash-map removal. -/
def mapRemove (m : List (Nat × Nat)) (id : Nat) : List (Nat × Nat) :=
  m.filter (fun kv => kv.1 != id)

/-- `WorkerPool::next_index` (src/pipeline/worker.rs lines 128-135):
`fetch_add` then wrap to 0 (storing 1) when past the end. -/
def WorkerPool.nextIndexStep (pool : WorkerPool) : Nat × WorkerPool :=
  let index := pool.next_index
  if index ≥ WORKER_N then (0, { pool with next_index := 1 })
  else (index, { pool with next_index := pool.next_index + 1 })

/-- `WorkerPool::send` (src/pipeline/worker.rs lines 137-155).  The
`.expect("Pipeline not found")` panics are modelled as `Except.error`; an
`.ok` result carries the worker index the command is dispatched to and the
updated pool. -/
def WorkerPool.send (pool : WorkerPool) (cmd : Command) :
    Except String (Nat × WorkerPool) :=
  match cmd with
  | .addPipeline id =>
    let s := pool.nextIndexStep
    .ok (s.1, { s.2 with
      pipeline_worker_map := mapInsert s.2.pipeline_worker_map id s.1 })
  | .removePipeline id =>
    match mapLookup pool.pipeline_worker_map id with
    | some index =>
      .ok (index, { pool with
        pipeline_worker_map := mapRemove pool.pipeline_worker_map id })
    | none => .error "Pipeline not found"
  | .setState id _ =>
    match mapLookup pool.pipeline_worker_map id with
    | some index => .ok (index, pool)
    | none => .error "Pipeline not found"
  | .seek id _ _ =>
    match mapLookup pool.pipeline_worker_map id with
    | some index => .ok (index, pool)
    | none => .error "Pipeline not found"
  | .setVideoSize id _ _ =>
    match mapLookup pool.pipeline_worker_map id with
    | some index => .ok (index, pool)
    | none => .error "Pipeline not found"

/-- C9: with the target id absent from the routing table, dispatching
`set_state`, `seek`, `resize` or removal panics (`Pipeline not found`);
creation never does — it always succeeds and its id is in the table
afterwards, bound to the dispatched worker index. -/
theorem C9_routing_fatal (pool : WorkerPool) (id target time : Nat)
    (rate : Option Int) (w h : Int)
    (habs : mapLookup pool.pipeline_worker_map id = none) :
    pool.send (.removePipeline id) = .error "Pipeline not found" ∧
    pool.send (.setState id target) = .error "Pipeline not found" ∧
    pool.send (.seek id time rate) = .error "Pipeline not found" ∧
    pool.send (.setVideoSize id w h) = .error "Pipeline not found" ∧
    (∀ pool2 : WorkerPool, ∀ id2 : Nat, ∃ idx : Nat, ∃ pool3 : WorkerPool,
      pool2.send (.addPipeline id2) = .ok (idx, pool3) ∧
      mapLookup pool3.pipeline_worker_map id2 = some idx) := by
  refine ⟨?_, ?_, ?_, ?_, ?_⟩
  · simp [WorkerPool.send, habs]
  · simp [WorkerPool.send, habs]
  · simp [WorkerPool.send, habs]
  · simp [WorkerPool.send, habs]
  · intro pool2 id2
    refine ⟨pool2.nextIndexStep.1, _, rfl, ?_⟩
    simp [mapLookup, mapInsert]

/-- Witness for C9 at the empty routing table. -/
theorem C9_witness :
    mapLookup ({ next_index := 0, pipeline_worker_map := [] } :
        WorkerPool).pipeline_worker_map 7 = none ∧
    ({ next_index := 0, pipeline_worker_map := [] } : WorkerPool).send
        (.removePipeline 7) = .error "Pipeline not found" :=
  ⟨rfl, (C9_routing_fatal { next_index := 0, pipeline_worker_map := [] }
    7 0 0 none 0 0 rfl).1⟩

/-! ## Claim C10: `Pipeline::seek` (src/pipeline/mod.rs lines 78-90,
src/gstreamer_pipeline.rs lines 106-127)

`gstreamer::ClockTime` is a `u64` nanosecond count, modelled as `Nat`. -/

/-- The part of the shared `State` cell read and written by `seek` and
`position`. -/
structure PipelineState where
  duration : Nat
  position : Nat
  deriving DecidableEq, Repr

/-- `Pipeline::seek`: clamp the requested time to the duration
(`time = state_lock.duration.min(time)`), store it as the current
position, then issue the underlying seek at the clamped time (with or
without a rate).  Returns the updated state and the time passed to the
underlying seek. -/
def Pipeline.seek (s : PipelineState) (time : Nat) (rate : Option Int) :
    PipelineState × Nat :=
  let t := min s.duration time
  ({ s with position := t }, t)

/-- C10: `seek(t, rate)` stores `min(duration, t)` as the position — a
`position()` read before any new sample arrives returns exactly that — and
issues the underlying seek at the same clamped value, never beyond the
duration. -/
theorem C10_seek_clamps (s : PipelineState) (time : Nat) (rate : Option Int) :
    (Pipeline.seek s time rate).1.position = min s.duration time ∧
    (Pipeline.seek s time rate).2 = min s.duration time ∧
    (Pipeline.seek s time rate).1.position ≤ s.duration ∧
    (Pipeline.seek s time rate).1.duration = s.duration :=
  ⟨rfl, rfl, Nat.min_le_left _ _, rfl⟩

end ZPlay
